import Mathlib

/-!
Shallow embedding of the markdown-to-PDF pipeline of `src/app.py`
(`process_inline_formatting` and `create_pdf_reportlab`), together with
spec-level reference definitions and theorems settling the frozen claims.

Conventions: Python strings are modelled as `List Char`; Python `re`
substitutions are modelled by specialised scanners that reproduce the
leftmost-match, lazy/greedy and backtracking behaviour of the concrete
patterns used in the source.  Whitespace is modelled over the ASCII range.
-/

/-- Python whitespace test (ASCII range), as used by `str.strip()` and `\s`. -/
def isPySpace (c : Char) : Bool :=
  c == ' ' || c == '\t' || c == '\n' || c == '\r' || c == Char.ofNat 11 || c == Char.ofNat 12

/-- ASCII alphanumeric, as matched by the `[\dA-Za-z]` character class. -/
def isAsciiAlnum (c : Char) : Bool :=
  ('0' ≤ c && c ≤ '9') || ('A' ≤ c && c ≤ 'Z') || ('a' ≤ c && c ≤ 'z')

/-- Does the text begin with two '#' characters (the `##` heading marker)? -/
def startsHH : List Char → Bool
  | c1 :: c2 :: _ => c1 == '#' && c2 == '#'
  | _ => false

/-- Python `str.strip()`: drop leading and trailing whitespace. -/
def pyStrip (cs : List Char) : List Char :=
  ((cs.dropWhile isPySpace).reverse.dropWhile isPySpace).reverse

/-- Python `str.lstrip("#")`. -/
def lstripHash (cs : List Char) : List Char :=
  cs.dropWhile (fun c => c == '#')

def splitlinesAux : List Char → List Char → List (List Char)
  | [], acc => [acc.reverse]
  | c :: rest, acc =>
    if c == '\n' then
      match rest with
      | [] => [acc.reverse]
      | _ :: _ => acc.reverse :: splitlinesAux rest []
    else splitlinesAux rest (c :: acc)

/-- Python `str.splitlines()`, restricted to `'\n'` boundaries: the empty
string gives no lines, and a single trailing newline produces no empty
final line. -/
def splitlines : List Char → List (List Char)
  | [] => []
  | c :: rest => splitlinesAux (c :: rest) []

/-- Join lines with `'\n'` separators (inverse of `splitlines` up to a
trailing newline). -/
def joinL : List (List Char) → List Char
  | [] => []
  | [l] => l
  | l :: l2 :: rest => l ++ '\n' :: joinL (l2 :: rest)

/-! ### Inline formatting: `process_inline_formatting` (src/app.py lines 138-158)

The source applies, in order,
`re.sub(r"\*\*(.+?)\*\*", r"<b>\1</b>", text)`,
`re.sub(r"\*(.+?)\*", r"<i>\1</i>", text)`,
`re.sub(r"\[(.+?)\]\((https?://[^\)]+)\)", r'<a href="\2" color="blue">\1</a>', text)`.
`.` does not match `'\n'`; `[^\)]` does. -/

/-- Lazy search for the closing `**` of a bold span: `accRev` holds the
(nonempty, reversed) group matched so far by `(.+?)`; at each step the
closer is tried first (lazy), otherwise one more non-newline character is
consumed. -/
def boldClose (accRev : List Char) : List Char → Option (List Char × List Char)
  | c :: rest =>
    if c == '*' && rest.head? == some '*' then some (accRev.reverse, rest.tail)
    else if c == '\n' then none
    else boldClose (c :: accRev) rest
  | [] => none

/-- Attempt to match `\*\*(.+?)\*\*` at the start of the text; returns the
group and the remainder after the closing `**`. -/
def matchBoldAt : List Char → Option (List Char × List Char)
  | c1 :: c2 :: c :: rest =>
    if c1 == '*' && c2 == '*' && c != '\n' then boldClose [c] rest else none
  | _ => none

/-- `re.sub` scan for the bold pattern (fuelled; fuel ≥ length suffices). -/
def subBoldF : Nat → List Char → List Char
  | 0, l => l
  | _ + 1, [] => []
  | fuel + 1, c :: rest =>
    match matchBoldAt (c :: rest) with
    | some (g, after) => "<b>".data ++ g ++ "</b>".data ++ subBoldF fuel after
    | none => c :: subBoldF fuel rest

def subBold (l : List Char) : List Char := subBoldF l.length l

/-- Lazy search for the closing `*` of an italic span. -/
def italicClose (accRev : List Char) : List Char → Option (List Char × List Char)
  | c :: rest =>
    if c == '*' then some (accRev.reverse, rest)
    else if c == '\n' then none
    else italicClose (c :: accRev) rest
  | [] => none

/-- Attempt to match `\*(.+?)\*` at the start of the text. -/
def matchItalicAt : List Char → Option (List Char × List Char)
  | c1 :: c :: rest =>
    if c1 == '*' && c != '\n' then italicClose [c] rest else none
  | _ => none

def subItalicF : Nat → List Char → List Char
  | 0, l => l
  | _ + 1, [] => []
  | fuel + 1, c :: rest =>
    match matchItalicAt (c :: rest) with
    | some (g, after) => "<i>".data ++ g ++ "</i>".data ++ subItalicF fuel after
    | none => c :: subItalicF fuel rest

def subItalic (l : List Char) : List Char := subItalicF l.length l

/-- Drop a literal prefix, or fail. -/
def dropPref : List Char → List Char → Option (List Char)
  | [], cs => some cs
  | p :: ps, c :: cs => if c == p then dropPref ps cs else none
  | _ :: _, [] => none

/-- After a scheme prefix, match `[^\)]+\)` greedily: the URL body is the
run of non-`')'` characters (newlines allowed), which must be nonempty and
followed by `')'`. -/
def urlAfterScheme (scheme rest : List Char) : Option (List Char × List Char) :=
  let body := rest.takeWhile (fun c => c != ')')
  if body.isEmpty then none
  else match rest.dropWhile (fun c => c != ')') with
    | ')' :: v => some (scheme ++ body, v)
    | _ => none

/-- Match `(https?://[^\)]+)\)`: greedy `s?` tries `https://` first. -/
def urlTail (u : List Char) : Option (List Char × List Char) :=
  match dropPref "https://".data u with
  | some r => urlAfterScheme "https://".data r
  | none =>
    match dropPref "http://".data u with
    | some r => urlAfterScheme "http://".data r
    | none => none

/-- Lazy search for `\]\(` followed by a valid URL; on a failed URL the
lazy group `(.+?)` keeps growing (regex backtracking), so `']'` is then
consumed as ordinary text. -/
def linkClose (accRev : List Char) : List Char → Option (List Char × List Char × List Char)
  | c :: rest =>
    if c == ']' && rest.head? == some '(' then
      match urlTail rest.tail with
      | some (url, v) => some (accRev.reverse, url, v)
      | none => if c == '\n' then none else linkClose (c :: accRev) rest
    else if c == '\n' then none else linkClose (c :: accRev) rest
  | [] => none

/-- Attempt to match `\[(.+?)\]\((https?://[^\)]+)\)` at the start. -/
def matchLinkAt : List Char → Option (List Char × List Char × List Char)
  | c1 :: c :: rest =>
    if c1 == '[' && c != '\n' then linkClose [c] rest else none
  | _ => none

def subLinkF : Nat → List Char → List Char
  | 0, l => l
  | _ + 1, [] => []
  | fuel + 1, c :: rest =>
    match matchLinkAt (c :: rest) with
    | some (t, url, after) =>
      "<a href=\"".data ++ url ++ "\" color=\"blue\">".data ++ t ++ "</a>".data
        ++ subLinkF fuel after
    | none => c :: subLinkF fuel rest

def subLink (l : List Char) : List Char := subLinkF l.length l

/-- `process_inline_formatting` on character lists: bold, then italic, then
link substitution (src/app.py lines 152-158). -/
def process_inline_L (l : List Char) : List Char :=
  subLink (subItalic (subBold l))

/-- `process_inline_formatting(text)` from src/app.py. -/
def process_inline_formatting (s : String) : String :=
  String.mk (process_inline_L s.data)

/-! ### Section splitting: `re.split(r'(^##\s*.+$)', content, flags=re.MULTILINE)`
(src/app.py line 282).

A match starts at a line start with the literal `##`; `\s*` is greedy with
backtracking (and may cross newlines), `.+` is greedy over non-newline
characters and `$` matches before a `'\n'` or at the end. -/

/-- Try one backtracking split point for the `\s*.+$` tail: `\s*` takes
`k` characters, then `.+$` must match (a nonempty run of non-newline
characters up to the line end). -/
def headCheck (full : List Char) (k : Nat) : Option (List Char × List Char) :=
  match (full.drop k).head? with
  | some c =>
    if c == '\n' then none
    else some (full.take k ++ (full.drop k).takeWhile (fun d => d != '\n'),
               (full.drop k).dropWhile (fun d => d != '\n'))
  | none => none

/-- Backtracking search, trying the greedy length first and shrinking. -/
def headSearch (full : List Char) : Nat → Option (List Char × List Char)
  | 0 => headCheck full 0
  | k + 1 =>
    match headCheck full (k + 1) with
    | some r => some r
    | none => headSearch full k

/-- Attempt to match `##\s*.+$` at the start of the text (which must be at
a line start); returns the matched text and the remainder (which is empty
or starts with `'\n'`). -/
def matchHeadingAt : List Char → Option (List Char × List Char)
  | c1 :: c2 :: full =>
    if c1 == '#' && c2 == '#' then
      match headSearch full (full.takeWhile isPySpace).length with
      | some (m, r) => some ('#' :: '#' :: m, r)
      | none => none
    else none
  | _ => none

/-- Scanner producing the `re.split` parts list: text parts alternate with
matched heading parts.  `acc` is the reversed current text part and `atLS`
records whether the scan position is at a line start.  The fuel is one
unit per consumed character; `splitParts` supplies enough. -/
def splitAuxF : Nat → List Char → List Char → Bool → List (List Char)
  | 0, l, acc, _ => [acc.reverse ++ l]
  | _ + 1, [], acc, _ => [acc.reverse]
  | fuel + 1, c :: rest, acc, atLS =>
    if atLS then
      match matchHeadingAt (c :: rest) with
      | some (m, r) => acc.reverse :: m :: splitAuxF fuel r [] false
      | none => splitAuxF fuel rest (c :: acc) (c == '\n')
    else splitAuxF fuel rest (c :: acc) (c == '\n')

/-- `parts = re.split(r'(^##\s*.+$)', content, flags=re.MULTILINE)`. -/
def splitParts (cs : List Char) : List (List Char) :=
  splitAuxF cs.length cs [] true

/-- Pair the alternating tail of the parts list into
(heading part, following text part) pairs, mirroring
`for i in range(1, len(parts), 2)` with the `parts[i+1] if i+1 < len(parts)
else ""` guard (src/app.py lines 289, 297). -/
def pairAux : List (List Char) → List (List Char × List Char)
  | [] => []
  | h :: rest =>
    match rest with
    | [] => [(h, [])]
    | t :: rest2 => (h, t) :: pairAux rest2

/-- The (heading part, raw section content) pairs processed by the loop;
the leading `parts[0]` text is skipped (content before the first heading
is discarded). -/
def pairSections : List (List Char) → List (List Char × List Char)
  | [] => []
  | _ :: rest => pairAux rest

/-- The heading/body pairs `create_pdf_reportlab` iterates over. -/
def sections (cs : List Char) : List (List Char × List Char) :=
  pairSections (splitParts cs)

/-! ### Styles and flowables (src/app.py lines 228-327) -/

/-- The `ParagraphStyle` fields set by the source (parent defaults are
modelled by the `parent` tag; unset numeric fields are 0, unset colour is
empty). -/
structure PStyle where
  name : String
  parent : String
  fontName : String
  fontSize : Nat
  leading : Nat
  spaceBefore : Nat
  spaceAfter : Nat
  textColor : String
  leftIndent : Nat
  bulletIndent : Nat
deriving DecidableEq, Repr

/-- `heading_style` (src/app.py lines 246-255). -/
def heading_style : PStyle :=
  { name := "Heading", parent := "Heading2", fontName := "DejaVuSans",
    fontSize := 18, leading := 22, spaceBefore := 20, spaceAfter := 6,
    textColor := "#4a90e2", leftIndent := 0, bulletIndent := 0 }

/-- `body_style` (src/app.py lines 258-265). -/
def body_style : PStyle :=
  { name := "Body", parent := "BodyText", fontName := "DejaVuSans",
    fontSize := 12, leading := 16, spaceBefore := 0, spaceAfter := 12,
    textColor := "", leftIndent := 0, bulletIndent := 0 }

/-- `bullet_style` (src/app.py lines 268-277). -/
def bullet_style : PStyle :=
  { name := "Bullet", parent := "BodyText", fontName := "DejaVuSans",
    fontSize := 12, leading := 16, spaceBefore := 0, spaceAfter := 6,
    textColor := "", leftIndent := 20, bulletIndent := 10 }

/-- ReportLab flowables appended to `elements`: `Paragraph`, `Spacer`, and
`ListFlowable` (whose items are always `Paragraph(text, style)` pairs). -/
inductive Flowable where
  | para (text : List Char) (style : PStyle)
  | spacer (width height : Nat)
  | listFlowable (items : List (List Char × PStyle)) (bulletType : String) (leftIndent : Nat)
deriving DecidableEq, Repr

/-! ### Section body classification and rendering (src/app.py lines 289-321) -/

/-- `re.match(r'^(?:[\dA-Za-z]+\.\s+|\-\s+)', line)` as a Bool: an ordered
marker (nonempty alphanumeric run, then '.', then whitespace) or a dash
marker ('-' then whitespace) at the start of the line. -/
def bulletMarkerMatch (line : List Char) : Bool :=
  (let run := line.takeWhile isAsciiAlnum
   !run.isEmpty &&
     (match line.drop run.length with
      | '.' :: d :: _ => isPySpace d
      | _ => false))
  || (match line with
      | '-' :: d :: _ => isPySpace d
      | _ => false)

/-- `re.sub(r'^(?:[\dA-Za-z]+\.\s+|\-\s+)', '', line)`: remove the greedy
marker match (including its whitespace run) from the line start, if any. -/
def stripBulletMarker (line : List Char) : List Char :=
  let run := line.takeWhile isAsciiAlnum
  if !run.isEmpty then
    match line.drop run.length with
    | '.' :: d :: t => if isPySpace d then (d :: t).dropWhile isPySpace else line
    | _ => line
  else
    match line with
    | '-' :: d :: t => if isPySpace d then (d :: t).dropWhile isPySpace else line
    | _ => line

/-- The first line whose `strip()` is non-blank (returned unstripped), as
found by the `for line in section_content.splitlines()` loop with `break`
(src/app.py lines 301-305). -/
def firstNonBlank : List (List Char) → Option (List Char)
  | [] => none
  | l :: ls => if (pyStrip l).isEmpty then firstNonBlank ls else some l

/-- Is `bullet_match` non-None after the detection loop? -/
def classifyIsBullet (sectionContent : List Char) : Bool :=
  match firstNonBlank (splitlines sectionContent) with
  | some l => bulletMarkerMatch l
  | none => false

/-- The `bullet_items` list: each line of the (already inline-processed)
section content is stripped; blank lines are skipped; the bullet marker is
removed; each item is a `Paragraph(line, bullet_style)`
(src/app.py lines 308-315). -/
def bulletItems (sectionContent : List Char) : List (List Char × PStyle) :=
  (splitlines sectionContent).filterMap (fun l =>
    let s := pyStrip l
    if s.isEmpty then none else some (stripBulletMarker s, bullet_style))

/-- `heading_text`: `parts[i].strip().lstrip("#").strip()`
(src/app.py lines 290-291). -/
def heading_text_of (headingPart : List Char) : List Char :=
  pyStrip (lstripHash (pyStrip headingPart))

/-- The flowables appended for one (heading part, raw content part) pair
in the body of the loop (src/app.py lines 289-321). -/
def sectionElements (heading_to_content_space : Nat) (hpart tpart : List Char) :
    List Flowable :=
  let heading_text := process_inline_L (heading_text_of hpart)
  let section_content := process_inline_L (pyStrip tpart)
  [Flowable.para heading_text heading_style,
   Flowable.spacer 1 heading_to_content_space]
  ++ (if classifyIsBullet section_content then
        [Flowable.listFlowable (bulletItems section_content) "bullet" 20]
      else if !section_content.isEmpty then
        [Flowable.para section_content body_style]
      else [])
  ++ [Flowable.spacer 1 12]

/-- The full `elements` list built by the loop (imperative appends are a
left fold over the section pairs). -/
def buildElements (content : List Char) (heading_to_content_space : Nat) :
    List Flowable :=
  (sections content).foldl
    (fun elements p => elements ++ sectionElements heading_to_content_space p.1 p.2) []

/-- `create_pdf_reportlab(content, file_name, heading_to_content_space=24)`
(src/app.py lines 208-327).  The font file lookup is modelled by the
`fontExists` environment flag: when the font is missing the function
raises `FileNotFoundError` before any flowable is produced; otherwise
`doc.build(elements)` consumes the assembled flowables, modelled as the
flowable list (the PDF byte generation itself is inside ReportLab).
The Python default for `heading_to_content_space` is 24. -/
def create_pdf_reportlab (fontExists : Bool) (content : String)
    (heading_to_content_space : Nat) : Except String (List Flowable) :=
  if fontExists then
    Except.ok (buildElements content.data heading_to_content_space)
  else
    Except.error "TTF Font file not found: dejavu-fonts-ttf-2.37/dejavu-fonts-ttf-2.37/ttf/DejaVuSans.ttf"

/-! ### Reference definitions and lemmas for the inline-formatting claims -/

/-- Does the bold pattern `\*\*(.+?)\*\*` occur anywhere in the text? -/
def containsBoldPat : List Char → Bool
  | [] => false
  | c :: rest => (matchBoldAt (c :: rest)).isSome || containsBoldPat rest

/-- Does the italic pattern `\*(.+?)\*` occur anywhere in the text? -/
def containsItalicPat : List Char → Bool
  | [] => false
  | c :: rest => (matchItalicAt (c :: rest)).isSome || containsItalicPat rest

/-- Does the link pattern `\[(.+?)\]\((https?://[^\)]+)\)` occur anywhere? -/
def containsLinkPat : List Char → Bool
  | [] => false
  | c :: rest => (matchLinkAt (c :: rest)).isSome || containsLinkPat rest

theorem subBoldF_id (fuel : Nat) :
    ∀ l : List Char, containsBoldPat l = false → subBoldF fuel l = l := by
  induction fuel with
  | zero => intro l _; rfl
  | succ fuel ih =>
    intro l h
    match l with
    | [] => rfl
    | c :: rest =>
      simp only [containsBoldPat, Bool.or_eq_false_iff] at h
      have hm : matchBoldAt (c :: rest) = none := by
        cases hm : matchBoldAt (c :: rest) with
        | none => rfl
        | some v => rw [hm] at h; simp at h
      simp only [subBoldF, hm]
      rw [ih rest h.2]

theorem subItalicF_id (fuel : Nat) :
    ∀ l : List Char, containsItalicPat l = false → subItalicF fuel l = l := by
  induction fuel with
  | zero => intro l _; rfl
  | succ fuel ih =>
    intro l h
    match l with
    | [] => rfl
    | c :: rest =>
      simp only [containsItalicPat, Bool.or_eq_false_iff] at h
      have hm : matchItalicAt (c :: rest) = none := by
        cases hm : matchItalicAt (c :: rest) with
        | none => rfl
        | some v => rw [hm] at h; simp at h
      simp only [subItalicF, hm]
      rw [ih rest h.2]

theorem subLinkF_id (fuel : Nat) :
    ∀ l : List Char, containsLinkPat l = false → subLinkF fuel l = l := by
  induction fuel with
  | zero => intro l _; rfl
  | succ fuel ih =>
    intro l h
    match l with
    | [] => rfl
    | c :: rest =>
      simp only [containsLinkPat, Bool.or_eq_false_iff] at h
      have hm : matchLinkAt (c :: rest) = none := by
        cases hm : matchLinkAt (c :: rest) with
        | none => rfl
        | some v => rw [hm] at h; simp at h
      simp only [subLinkF, hm]
      rw [ih rest h.2]

theorem subBold_id (l : List Char) (h : containsBoldPat l = false) : subBold l = l :=
  subBoldF_id l.length l h

theorem subItalic_id (l : List Char) (h : containsItalicPat l = false) : subItalic l = l :=
  subItalicF_id l.length l h

theorem subLink_id (l : List Char) (h : containsLinkPat l = false) : subLink l = l :=
  subLinkF_id l.length l h

/-- The `(.+?)` group of a bold match never contains a newline. -/
theorem boldClose_no_newline :
    ∀ (rem accRev g r : List Char), '\n' ∉ accRev →
      boldClose accRev rem = some (g, r) → '\n' ∉ g := by
  intro rem
  induction rem with
  | nil => intro accRev g r _ h; simp [boldClose] at h
  | cons c rest ih =>
    intro accRev g r hacc h
    simp only [boldClose] at h
    split at h
    · have h2 := Option.some.inj h
      have hg : accRev.reverse = g := congrArg Prod.fst h2
      rw [← hg]
      simpa using hacc
    · split at h
      · simp at h
      · rename_i hclose hnl
        have hcne : c ≠ '\n' := by
          intro heq; subst heq; simp at hnl
        exact ih (c :: accRev) g r
          (by
            intro hm
            rcases List.mem_cons.mp hm with h1 | h2
            · exact hcne h1.symm
            · exact hacc h2) h

theorem matchBoldAt_no_newline (l g r : List Char)
    (h : matchBoldAt l = some (g, r)) : '\n' ∉ g := by
  match l with
  | [] => simp [matchBoldAt] at h
  | [c] => simp [matchBoldAt] at h
  | [c, d] => simp [matchBoldAt] at h
  | c1 :: c2 :: c :: rest =>
    simp only [matchBoldAt] at h
    split at h
    · rename_i hcond
      simp only [Bool.and_eq_true, bne_iff_ne] at hcond
      exact boldClose_no_newline rest [c] g r
        (by
          intro hm
          rw [List.mem_singleton] at hm
          exact hcond.2 hm.symm) h
    · simp at h

/-- The `(.+?)` group of an italic match never contains a newline. -/
theorem italicClose_no_newline :
    ∀ (rem accRev g r : List Char), '\n' ∉ accRev →
      italicClose accRev rem = some (g, r) → '\n' ∉ g := by
  intro rem
  induction rem with
  | nil => intro accRev g r _ h; simp [italicClose] at h
  | cons c rest ih =>
    intro accRev g r hacc h
    simp only [italicClose] at h
    split at h
    · have h2 := Option.some.inj h
      have hg : accRev.reverse = g := congrArg Prod.fst h2
      rw [← hg]
      simpa using hacc
    · split at h
      · simp at h
      · rename_i hclose hnl
        have hcne : c ≠ '\n' := by
          intro heq; subst heq; simp at hnl
        exact ih (c :: accRev) g r
          (by
            intro hm
            rcases List.mem_cons.mp hm with h1 | h2
            · exact hcne h1.symm
            · exact hacc h2) h

theorem matchItalicAt_no_newline (l g r : List Char)
    (h : matchItalicAt l = some (g, r)) : '\n' ∉ g := by
  match l with
  | [] => simp [matchItalicAt] at h
  | [c] => simp [matchItalicAt] at h
  | c1 :: c :: rest =>
    simp only [matchItalicAt] at h
    split at h
    · rename_i hcond
      simp only [Bool.and_eq_true, bne_iff_ne] at hcond
      exact italicClose_no_newline rest [c] g r
        (by
          intro hm
          rw [List.mem_singleton] at hm
          exact hcond.2 hm.symm) h
    · simp at h

/-- A successfully matched URL group always begins with the scheme used. -/
theorem urlAfterScheme_pref (scheme rest url v : List Char)
    (h : urlAfterScheme scheme rest = some (url, v)) : scheme <+: url := by
  simp only [urlAfterScheme] at h
  split at h
  · simp at h
  · split at h
    · have h2 := Option.some.inj h
      have hurl : scheme ++ rest.takeWhile (fun c => c != ')') = url :=
        congrArg Prod.fst h2
      exact hurl ▸ ⟨_, rfl⟩
    · simp at h

/-- The URL group of a resolved link always starts with `http://` or
`https://`. -/
theorem urlTail_scheme (u url v : List Char) (h : urlTail u = some (url, v)) :
    "http://".data <+: url ∨ "https://".data <+: url := by
  simp only [urlTail] at h
  cases h1 : dropPref "https://".data u with
  | some r =>
    rw [h1] at h
    exact Or.inr (urlAfterScheme_pref _ _ _ _ h)
  | none =>
    rw [h1] at h
    cases h2 : dropPref "http://".data u with
    | some r =>
      rw [h2] at h
      exact Or.inl (urlAfterScheme_pref _ _ _ _ h)
    | none => rw [h2] at h; simp at h

theorem linkClose_scheme :
    ∀ (rem accRev t url v : List Char),
      linkClose accRev rem = some (t, url, v) →
      "http://".data <+: url ∨ "https://".data <+: url := by
  intro rem
  induction rem with
  | nil => intro accRev t url v h; simp [linkClose] at h
  | cons c rest ih =>
    intro accRev t url v h
    simp only [linkClose] at h
    split at h
    · split at h
      · rename_i url2 v2 hu
        have h2 := Option.some.inj h
        have hurl : url2 = url := congrArg (fun q => q.2.1) h2
        exact hurl ▸ urlTail_scheme rest.tail url2 v2 hu
      · split at h
        · simp at h
        · exact ih _ _ _ _ h
    · split at h
      · simp at h
      · exact ih _ _ _ _ h

theorem matchLinkAt_scheme (l t url v : List Char)
    (h : matchLinkAt l = some (t, url, v)) :
    "http://".data <+: url ∨ "https://".data <+: url := by
  match l with
  | [] => simp [matchLinkAt] at h
  | [c] => simp [matchLinkAt] at h
  | c1 :: c :: rest =>
    simp only [matchLinkAt] at h
    split at h
    · exact linkClose_scheme rest [c] t url v h
    · simp at h

/-! ### Line-level reference model of the heading split

`specSections` is the spec/claim-side description: walk the lines, a line
starting (at column 0) with `##` opens a section, its body is the run of
following non-heading lines, and lines before the first heading are
dropped.  `lineSecAux`/`lineSecTop` are an exact line-level image of the
character scanner (tracking the raw accumulated text), used to relate the
two. -/

/-- No newline occurs in the line. -/
def noNL (l : List Char) : Bool := l.all (fun c => c != '\n')

def linesWF (ls : List (List Char)) : Bool := ls.all noNL

/-- A `##` line is good when some non-whitespace character follows the
marker on the same line (this keeps the `\s*` of the heading regex from
crossing the line break). -/
def goodLine (l : List Char) : Bool :=
  !startsHH l || !(((l.drop 2).dropWhile isPySpace).isEmpty)

def goodLines (ls : List (List Char)) : Bool := ls.all goodLine

/-- Claim-side section grouping: body lines are collected (reversed) until
the next heading line. -/
def specGroupAux (h : List Char) (bodyRev : List (List Char)) :
    List (List Char) → List (List Char × List (List Char))
  | [] => [(h, bodyRev.reverse)]
  | l :: ls =>
    if startsHH l then (h, bodyRev.reverse) :: specGroupAux l [] ls
    else specGroupAux h (l :: bodyRev) ls

/-- Claim-side sections of a line list: leading non-heading lines are
discarded; every heading line starts a section. -/
def specSections : List (List Char) → List (List Char × List (List Char))
  | [] => []
  | l :: ls => if startsHH l then specGroupAux l [] ls else specSections ls

/-- Raw residual text after a heading line: each following line is preceded
by its `'\n'` separator, and `tr` is the optional trailing newline of the
document. -/
def resid : List (List Char) → List Char → List Char
  | [], tr => tr
  | l :: ls, tr => '\n' :: (l ++ resid ls tr)

/-- Line-level image of the scanner after a heading `h` has been emitted:
`pendRev` is the reversed text accumulated for the pending section body. -/
def lineSecAux (h pendRev : List Char) :
    List (List Char) → List Char → List (List Char × List Char)
  | [], tr => [(h, pendRev.reverse ++ tr)]
  | l :: ls, tr =>
    if startsHH l then (h, pendRev.reverse ++ ['\n']) :: lineSecAux l [] ls tr
    else lineSecAux h (l.reverse ++ '\n' :: pendRev) ls tr

/-- Line-level image of the scanner before the first heading. -/
def lineSecTop : List (List Char) → List Char → List (List Char × List Char)
  | [], _ => []
  | l :: ls, tr => if startsHH l then lineSecAux l [] ls tr else lineSecTop ls tr

/-- The raw text chunk corresponding to a list of body lines, each with its
leading newline separator. -/
def linesChunk (col : List (List Char)) : List Char :=
  (col.map (fun l => '\n' :: l)).flatten

/-! ### Helper lemmas -/

theorem joinL_cons_append (l : List Char) (ls : List (List Char)) (tr : List Char) :
    joinL (l :: ls) ++ tr = l ++ resid ls tr := by
  induction ls generalizing l with
  | nil => simp [joinL, resid]
  | cons l2 ls2 ih =>
    show (l ++ '\n' :: joinL (l2 :: ls2)) ++ tr = l ++ '\n' :: (l2 ++ resid ls2 tr)
    rw [List.append_assoc]
    rw [show ('\n' :: joinL (l2 :: ls2)) ++ tr = '\n' :: (joinL (l2 :: ls2) ++ tr) from rfl]
    rw [ih l2]

theorem pyStrip_cons_ws (c : Char) (x : List Char) (h : isPySpace c = true) :
    pyStrip (c :: x) = pyStrip x := by
  simp [pyStrip, List.dropWhile_cons, h]

theorem pyStrip_append_ws (x : List Char) (c : Char) (h : isPySpace c = true) :
    pyStrip (x ++ [c]) = pyStrip x := by
  unfold pyStrip
  rw [List.dropWhile_append]
  by_cases he : (x.dropWhile isPySpace).isEmpty = true
  · rw [if_pos he]
    rw [List.isEmpty_iff] at he
    rw [he]
    simp [List.dropWhile_cons, h]
  · rw [if_neg he]
    rw [List.reverse_append]
    simp [List.dropWhile_cons, h]

theorem pyStrip_nil : pyStrip [] = [] := rfl

theorem linesChunk_cons_ne (l : List Char) (col : List (List Char)) (h : col ≠ []) :
    linesChunk (l :: col) = '\n' :: joinL (l :: col) := by
  induction col generalizing l with
  | nil => exact absurd rfl h
  | cons l2 col2 ih =>
    cases col2 with
    | nil => simp [linesChunk, joinL]
    | cons a b =>
      have h2 : linesChunk (l2 :: a :: b) = '\n' :: joinL (l2 :: a :: b) :=
        ih l2 (by simp)
      show ('\n' :: l) ++ linesChunk (l2 :: a :: b) = '\n' :: joinL (l :: l2 :: a :: b)
      rw [h2]
      rfl

theorem linesChunk_single (l : List Char) : linesChunk [l] = '\n' :: l := by
  simp [linesChunk]

theorem pyStrip_linesChunk (col : List (List Char)) :
    pyStrip (linesChunk col) = pyStrip (joinL col) := by
  cases col with
  | nil => rfl
  | cons l col2 =>
    cases col2 with
    | nil => rw [linesChunk_single]; exact pyStrip_cons_ws '\n' (joinL [l]) rfl
    | cons a b =>
      rw [linesChunk_cons_ne l (a :: b) (by simp)]
      exact pyStrip_cons_ws '\n' (joinL (l :: a :: b)) rfl

theorem linesChunk_append_single (col : List (List Char)) (l : List Char) :
    linesChunk (col ++ [l]) = linesChunk col ++ ('\n' :: l) := by
  simp [linesChunk]

theorem joinL_cons_ne (x : List Char) (L : List (List Char)) (h : L ≠ []) :
    joinL (x :: L) = x ++ '\n' :: joinL L := by
  cases L with
  | nil => exact absurd rfl h
  | cons a b => rfl

theorem splitlinesAux_ne_nil : ∀ (cs acc : List Char), splitlinesAux cs acc ≠ [] := by
  intro cs
  induction cs with
  | nil => intro acc; simp [splitlinesAux]
  | cons c rest ih =>
    intro acc
    simp only [splitlinesAux]
    split
    · cases rest with
      | nil => simp
      | cons a b => simp
    · exact ih _

theorem splitlinesAux_decomp :
    ∀ (cs acc : List Char), ∃ tr, (tr = [] ∨ tr = ['\n']) ∧
      joinL (splitlinesAux cs acc) ++ tr = acc.reverse ++ cs := by
  intro cs
  induction cs with
  | nil =>
    intro acc
    exact ⟨[], Or.inl rfl, by simp [splitlinesAux, joinL]⟩
  | cons c rest ih =>
    intro acc
    by_cases hc : (c == '\n') = true
    · have hceq : c = '\n' := by simpa using hc
      subst hceq
      cases rest with
      | nil =>
        refine ⟨['\n'], Or.inr rfl, ?_⟩
        simp [splitlinesAux, joinL]
      | cons a b =>
        obtain ⟨tr, htr, heq⟩ := ih []
        refine ⟨tr, htr, ?_⟩
        have hred : splitlinesAux ('\n' :: a :: b) acc
            = acc.reverse :: splitlinesAux (a :: b) [] := by
          simp [splitlinesAux]
        rw [hred, joinL_cons_ne _ _ (splitlinesAux_ne_nil _ _), List.append_assoc]
        simp only [List.reverse_nil, List.nil_append] at heq
        show acc.reverse ++ ('\n' :: joinL (splitlinesAux (a :: b) []) ++ tr)
            = acc.reverse ++ '\n' :: a :: b
        rw [show '\n' :: joinL (splitlinesAux (a :: b) []) ++ tr
            = '\n' :: (joinL (splitlinesAux (a :: b) []) ++ tr) from rfl, heq]
    · obtain ⟨tr, htr, heq⟩ := ih (c :: acc)
      refine ⟨tr, htr, ?_⟩
      have hred : splitlinesAux (c :: rest) acc = splitlinesAux rest (c :: acc) := by
        simp [splitlinesAux, hc]
      rw [hred, heq]
      simp

theorem splitlines_decomp (cs : List Char) :
    ∃ tr, (tr = [] ∨ tr = ['\n']) ∧ joinL (splitlines cs) ++ tr = cs := by
  cases cs with
  | nil => exact ⟨[], Or.inl rfl, rfl⟩
  | cons c rest =>
    obtain ⟨tr, htr, heq⟩ := splitlinesAux_decomp (c :: rest) []
    exact ⟨tr, htr, by simpa using heq⟩

theorem splitlinesAux_wf :
    ∀ (cs acc : List Char), noNL acc = true → linesWF (splitlinesAux cs acc) = true := by
  intro cs
  induction cs with
  | nil =>
    intro acc hacc
    simp only [splitlinesAux, linesWF, List.all_cons, List.all_nil, Bool.and_true]
    simpa [noNL, List.all_reverse] using hacc
  | cons c rest ih =>
    intro acc hacc
    by_cases hc : (c == '\n') = true
    · have hceq : c = '\n' := by simpa using hc
      subst hceq
      cases rest with
      | nil =>
        simp only [splitlinesAux, if_pos, linesWF, List.all_cons, List.all_nil, Bool.and_true]
        simpa [noNL, List.all_reverse] using hacc
      | cons a b =>
        have hred : splitlinesAux ('\n' :: a :: b) acc
            = acc.reverse :: splitlinesAux (a :: b) [] := by
          simp [splitlinesAux]
        rw [hred]
        simp only [linesWF, List.all_cons, Bool.and_eq_true]
        constructor
        · simpa [noNL, List.all_reverse] using hacc
        · exact ih [] rfl
    · have hred : splitlinesAux (c :: rest) acc = splitlinesAux rest (c :: acc) := by
        simp [splitlinesAux, hc]
      rw [hred]
      refine ih (c :: acc) ?_
      simp only [noNL, List.all_cons, Bool.and_eq_true]
      constructor
      · simpa using hc
      · simpa [noNL] using hacc

theorem splitlines_wf (cs : List Char) : linesWF (splitlines cs) = true := by
  cases cs with
  | nil => rfl
  | cons c rest => exact splitlinesAux_wf (c :: rest) [] rfl

theorem take_takeWhile (p : Char → Bool) :
    ∀ l : List Char, l.take (l.takeWhile p).length = l.takeWhile p := by
  intro l
  induction l with
  | nil => rfl
  | cons c rest ih =>
    by_cases hc : p c = true
    · simp [List.takeWhile_cons, hc, ih]
    · simp [List.takeWhile_cons, hc]

theorem drop_takeWhile (p : Char → Bool) :
    ∀ l : List Char, l.drop (l.takeWhile p).length = l.dropWhile p := by
  intro l
  induction l with
  | nil => rfl
  | cons c rest ih =>
    by_cases hc : p c = true
    · simp [List.takeWhile_cons, List.dropWhile_cons, hc, ih]
    · simp [List.takeWhile_cons, List.dropWhile_cons, hc]

theorem takeWhile_append_of_ne (p : Char → Bool) :
    ∀ (u v : List Char), u.dropWhile p ≠ [] →
      (u ++ v).takeWhile p = u.takeWhile p := by
  intro u
  induction u with
  | nil => intro v h; exact absurd rfl h
  | cons c u2 ih =>
    intro v h
    by_cases hc : p c = true
    · have h2 : u2.dropWhile p ≠ [] := by
        simpa [List.dropWhile_cons, hc] using h
      simp [List.takeWhile_cons, hc, ih v h2]
    · simp [List.takeWhile_cons, hc]

theorem dropWhile_append_of_ne (p : Char → Bool) (u v : List Char)
    (h : u.dropWhile p ≠ []) :
    (u ++ v).dropWhile p = u.dropWhile p ++ v := by
  rw [List.dropWhile_append]
  simp [List.isEmpty_iff, h]

theorem noNL_dropWhile (p : Char → Bool) :
    ∀ u : List Char, noNL u = true → noNL (u.dropWhile p) = true := by
  intro u
  induction u with
  | nil => intro h; exact h
  | cons c u2 ih =>
    intro h
    simp only [noNL, List.all_cons, Bool.and_eq_true] at h
    by_cases hc : p c = true
    · simp only [List.dropWhile_cons, hc, if_pos]
      exact ih h.2
    · simp only [List.dropWhile_cons, hc, if_neg, Bool.not_eq_true]
      simp only [noNL, List.all_cons, Bool.and_eq_true]
      exact h

theorem takeWhile_ne_nl_append (u tail : List Char) (hu : noNL u = true)
    (ht : tail = [] ∨ ∃ r, tail = '\n' :: r) :
    (u ++ tail).takeWhile (fun d => d != '\n') = u := by
  induction u with
  | nil =>
    rcases ht with h | ⟨r, h⟩ <;> subst h
    · rfl
    · simp [List.takeWhile_cons]
  | cons c u2 ih =>
    simp only [noNL, List.all_cons, Bool.and_eq_true] at hu
    have ih2 := ih (by simpa [noNL] using hu.2)
    simp [List.takeWhile_cons, hu.1, ih2]

theorem dropWhile_ne_nl_append (u tail : List Char) (hu : noNL u = true)
    (ht : tail = [] ∨ ∃ r, tail = '\n' :: r) :
    (u ++ tail).dropWhile (fun d => d != '\n') = tail := by
  induction u with
  | nil =>
    rcases ht with h | ⟨r, h⟩ <;> subst h
    · rfl
    · simp [List.dropWhile_cons]
  | cons c u2 ih =>
    simp only [noNL, List.all_cons, Bool.and_eq_true] at hu
    have ih2 := ih (by simpa [noNL] using hu.2)
    simp [List.dropWhile_cons, hu.1, ih2]

theorem headSearch_of_check (full : List Char) (n : Nat) (r : List Char × List Char)
    (h : headCheck full n = some r) : headSearch full n = some r := by
  cases n with
  | zero => simpa [headSearch] using h
  | succ k => simp [headSearch, h]

theorem dropWhile_head_not (p : Char → Bool) :
    ∀ (u : List Char) (c0 : Char) (us : List Char),
      u.dropWhile p = c0 :: us → p c0 = false := by
  intro u
  induction u with
  | nil => intro c0 us h; simp at h
  | cons c u2 ih =>
    intro c0 us h
    by_cases hc : p c = true
    · rw [List.dropWhile_cons, if_pos hc] at h
      exact ih _ _ h
    · rw [List.dropWhile_cons, if_neg hc] at h
      injection h with h1 h2
      subst h1
      simpa using hc

/-- On a good `##` line (followed by a line boundary), the heading regex
matches exactly the line. -/
theorem matchHeadingAt_heading (line tail : List Char)
    (hline : noNL line = true) (hhh : startsHH line = true)
    (hgood : ((line.drop 2).dropWhile isPySpace).isEmpty = false)
    (htail : tail = [] ∨ ∃ r, tail = '\n' :: r) :
    matchHeadingAt (line ++ tail) = some (line, tail) := by
  cases line with
  | nil => simp [startsHH] at hhh
  | cons c1 rest1 =>
    cases rest1 with
    | nil => simp [startsHH] at hhh
    | cons c2 u =>
      simp only [startsHH, Bool.and_eq_true, beq_iff_eq] at hhh
      obtain ⟨hc1, hc2⟩ := hhh
      subst hc1; subst hc2
      have hu : noNL u = true := by
        simp only [noNL, List.all_cons, Bool.and_eq_true] at hline
        simpa [noNL] using hline.2.2
      have hne : u.dropWhile isPySpace ≠ [] := by
        intro heq
        rw [show (('#' :: '#' :: u).drop 2) = u from rfl] at hgood
        rw [heq] at hgood
        simp at hgood
      have htw : (u ++ tail).takeWhile isPySpace = u.takeWhile isPySpace :=
        takeWhile_append_of_ne isPySpace u tail hne
      have hdw : (u ++ tail).dropWhile isPySpace = u.dropWhile isPySpace ++ tail :=
        dropWhile_append_of_ne isPySpace u tail hne
      have hdrop : (u ++ tail).drop ((u ++ tail).takeWhile isPySpace).length
          = u.dropWhile isPySpace ++ tail := by
        rw [drop_takeWhile isPySpace (u ++ tail), hdw]
      have htake : (u ++ tail).take ((u ++ tail).takeWhile isPySpace).length
          = u.takeWhile isPySpace := by
        rw [take_takeWhile isPySpace (u ++ tail), htw]
      cases hud : u.dropWhile isPySpace with
      | nil => exact absurd hud hne
      | cons c0 us =>
        have hc0 : isPySpace c0 = false := dropWhile_head_not isPySpace u c0 us hud
        have hc0nl : (c0 == '\n') = false := by
          cases hq : (c0 == '\n') with
          | false => rfl
          | true =>
            have : c0 = '\n' := by simpa using hq
            rw [this] at hc0
            simp [isPySpace] at hc0
        have hnoNLc0 : noNL (c0 :: us) = true := by
          rw [← hud]; exact noNL_dropWhile isPySpace u hu
        have hcheck : headCheck (u ++ tail) ((u ++ tail).takeWhile isPySpace).length
            = some (u, tail) := by
          unfold headCheck
          rw [hdrop, hud]
          simp only [List.cons_append, List.head?_cons, hc0nl, Bool.false_eq_true,
            if_false]
          rw [htake]
          have h1 : ((c0 :: us) ++ tail).takeWhile (fun d => d != '\n') = c0 :: us :=
            takeWhile_ne_nl_append (c0 :: us) tail hnoNLc0 htail
          have h2 : ((c0 :: us) ++ tail).dropWhile (fun d => d != '\n') = tail :=
            dropWhile_ne_nl_append (c0 :: us) tail hnoNLc0 htail
          simp only [List.cons_append] at h1 h2
          rw [h1, h2, ← hud]
          rw [List.takeWhile_append_dropWhile]
        have hsearch := headSearch_of_check _ _ _ hcheck
        show matchHeadingAt ('#' :: '#' :: (u ++ tail)) = some ('#' :: '#' :: u, tail)
        simp [matchHeadingAt, hsearch]

theorem matchHeadingAt_none (l : List Char) (h : startsHH l = false) :
    matchHeadingAt l = none := by
  cases l with
  | nil => rfl
  | cons c1 rest =>
    cases rest with
    | nil => rfl
    | cons c2 full =>
      simp only [startsHH] at h
      simp [matchHeadingAt, h]

theorem startsHH_append_false (l R : List Char) (hl : startsHH l = false)
    (hR : R = [] ∨ ∃ r, R = '\n' :: r) : startsHH (l ++ R) = false := by
  cases l with
  | nil =>
    rcases hR with h | ⟨r, h⟩ <;> subst h
    · rfl
    · cases r <;> simp [startsHH]
  | cons c1 rest =>
    cases rest with
    | nil =>
      rcases hR with h | ⟨r, h⟩ <;> subst h
      · simp [startsHH]
      · simp [startsHH]
    | cons c2 rest2 => simpa [startsHH] using hl

theorem splitAuxF_nil_list (fuel : Nat) (acc : List Char) (b : Bool) :
    splitAuxF fuel [] acc b = [acc.reverse] := by
  cases fuel <;> simp [splitAuxF]

/-- At a newline the heading attempt always fails, so the line-start flag
does not matter. -/
theorem splitAuxF_nl_flag (fuel : Nat) (rest acc : List Char) :
    splitAuxF fuel ('\n' :: rest) acc true = splitAuxF fuel ('\n' :: rest) acc false := by
  cases fuel with
  | zero => rfl
  | succ f =>
    have hm : matchHeadingAt ('\n' :: rest) = none :=
      matchHeadingAt_none _ (by cases rest <;> simp [startsHH])
    simp [splitAuxF, hm]

/-- Consuming a newline-free segment with the line-start flag off. -/
theorem splitAuxF_consume :
    ∀ (seg : List Char), noNL seg = true →
      ∀ (rest acc : List Char) (fuel : Nat),
        splitAuxF (seg.length + fuel) (seg ++ rest) acc false
          = splitAuxF fuel rest (seg.reverse ++ acc) false := by
  intro seg
  induction seg with
  | nil => intro _ rest acc fuel; simp
  | cons c seg2 ih =>
    intro hseg rest acc fuel
    simp only [noNL, List.all_cons, Bool.and_eq_true] at hseg
    have hc : (c == '\n') = false := by
      have := hseg.1
      cases hq : (c == '\n') with
      | false => rfl
      | true =>
        have hce : c = '\n' := by simpa using hq
        rw [hce] at this
        simp at this
    have harith : (c :: seg2).length + fuel = (seg2.length + fuel) + 1 := by
      simp [List.length_cons]; omega
    rw [harith]
    have hstep : splitAuxF ((seg2.length + fuel) + 1) ((c :: seg2) ++ rest) acc false
        = splitAuxF (seg2.length + fuel) (seg2 ++ rest) (c :: acc) (c == '\n') := rfl
    rw [hstep, hc]
    rw [ih (by simpa [noNL] using hseg.2) rest (c :: acc) fuel]
    simp

/-- Consuming a whole non-heading line (with the flag on at its start). -/
theorem splitAuxF_textline (l R acc : List Char) (fuel : Nat)
    (hl : noNL l = true) (hhh : startsHH l = false)
    (hR : R = [] ∨ ∃ r, R = '\n' :: r)
    (hfuel : l.length + R.length ≤ fuel) :
    splitAuxF fuel (l ++ R) acc true
      = splitAuxF (fuel - l.length) R (l.reverse ++ acc) false := by
  cases l with
  | nil =>
    simp only [List.nil_append, List.length_nil, Nat.sub_zero, List.reverse_nil]
    rcases hR with h | ⟨r, h⟩ <;> subst h
    · rw [splitAuxF_nil_list, splitAuxF_nil_list]
    · exact splitAuxF_nl_flag fuel r acc
  | cons c l2 =>
    have hfe : ∃ f, fuel = f + 1 := by
      refine ⟨fuel - 1, ?_⟩
      have : 1 ≤ fuel := by simp [List.length_cons] at hfuel; omega
      omega
    obtain ⟨f, hfe⟩ := hfe
    subst hfe
    have hm : matchHeadingAt ((c :: l2) ++ R) = none :=
      matchHeadingAt_none _ (startsHH_append_false (c :: l2) R hhh hR)
    have hc : (c == '\n') = false := by
      simp only [noNL, List.all_cons, Bool.and_eq_true] at hl
      have := hl.1
      cases hq : (c == '\n') with
      | false => rfl
      | true =>
        have hce : c = '\n' := by simpa using hq
        rw [hce] at this
        simp at this
    have hstep : splitAuxF (f + 1) ((c :: l2) ++ R) acc true
        = splitAuxF f (l2 ++ R) (c :: acc) (c == '\n') := by
      show (match matchHeadingAt ((c :: l2) ++ R) with
            | some (m, r) => acc.reverse :: m :: splitAuxF f r [] false
            | none => splitAuxF f (l2 ++ R) (c :: acc) (c == '\n'))
          = splitAuxF f (l2 ++ R) (c :: acc) (c == '\n')
      rw [hm]
    rw [hstep, hc]
    have hl2 : noNL l2 = true := by
      simp only [noNL, List.all_cons, Bool.and_eq_true] at hl
      simpa [noNL] using hl.2
    have hcons := splitAuxF_consume l2 hl2 R (c :: acc) (f - l2.length)
    have hf2 : l2.length + (f - l2.length) = f := by
      simp only [List.length_cons] at hfuel; omega
    rw [hf2] at hcons
    rw [hcons]
    have hfq : (f + 1) - (c :: l2).length = f - l2.length := by
      simp only [List.length_cons]; omega
    have hacc : (c :: l2).reverse ++ acc = l2.reverse ++ c :: acc := by simp
    rw [hfq, hacc]

theorem resid_shape (ls2 : List (List Char)) (tr : List Char)
    (htr : tr = [] ∨ tr = ['\n']) :
    resid ls2 tr = [] ∨ ∃ r, resid ls2 tr = '\n' :: r := by
  cases ls2 with
  | nil =>
    rcases htr with h1 | h1 <;> subst h1
    · exact Or.inl rfl
    · exact Or.inr ⟨[], rfl⟩
  | cons a b => exact Or.inr ⟨a ++ resid b tr, rfl⟩

theorem startsHH_len2 (l : List Char) (hhh : startsHH l = true) : 2 ≤ l.length := by
  cases l with
  | nil => simp [startsHH] at hhh
  | cons a rest =>
    cases rest with
    | nil => simp [startsHH] at hhh
    | cons b r2 => simp [List.length_cons]

theorem goodLine_drop (l : List Char) (hg : goodLine l = true) (hhh : startsHH l = true) :
    ((l.drop 2).dropWhile isPySpace).isEmpty = false := by
  simp only [goodLine, hhh, Bool.not_true, Bool.false_or] at hg
  cases hq : ((l.drop 2).dropWhile isPySpace).isEmpty with
  | false => rfl
  | true => rw [hq] at hg; simp at hg

/-- The scanner step at the start of a good heading line. -/
theorem splitAuxF_headline (l R acc : List Char) (f2 : Nat)
    (hl : noNL l = true) (hhh : startsHH l = true)
    (hgoodl : ((l.drop 2).dropWhile isPySpace).isEmpty = false)
    (hR : R = [] ∨ ∃ r, R = '\n' :: r) :
    splitAuxF (f2 + 1) (l ++ R) acc true
      = acc.reverse :: l :: splitAuxF f2 R [] false := by
  have hmatch := matchHeadingAt_heading l R hl hhh hgoodl hR
  cases hcl : (l ++ R) with
  | nil =>
    exfalso
    have h2 := (List.append_eq_nil.mp hcl).1
    have := startsHH_len2 l hhh
    rw [h2] at this
    simp at this
  | cons c rest =>
    show (match matchHeadingAt (c :: rest) with
          | some (m, r) => acc.reverse :: m :: splitAuxF f2 r [] false
          | none => splitAuxF f2 rest (c :: acc) (c == '\n'))
        = acc.reverse :: l :: splitAuxF f2 R [] false
    rw [← hcl, hmatch]

theorem scanBody :
    ∀ (ls : List (List Char)) (tr h pendRev : List Char) (fuel : Nat),
      linesWF ls = true → goodLines ls = true →
      (tr = [] ∨ tr = ['\n']) →
      (resid ls tr).length ≤ fuel →
      pairAux (h :: splitAuxF fuel (resid ls tr) pendRev false)
        = lineSecAux h pendRev ls tr := by
  intro ls
  induction ls with
  | nil =>
    intro tr h pendRev fuel _ _ htr hfuel
    rcases htr with h1 | h1 <;> subst h1
    · rw [show resid [] [] = ([] : List Char) from rfl, splitAuxF_nil_list]
      show pairAux [h, pendRev.reverse] = [(h, pendRev.reverse ++ [])]
      simp [pairAux]
    · have hf : ∃ f, fuel = f + 1 :=
        ⟨fuel - 1, by simp [resid] at hfuel; omega⟩
      obtain ⟨f, hf⟩ := hf; subst hf
      rw [show resid [] ['\n'] = ['\n'] from rfl]
      have hstep : splitAuxF (f + 1) ['\n'] pendRev false
          = splitAuxF f [] ('\n' :: pendRev) true := rfl
      rw [hstep, splitAuxF_nil_list]
      show pairAux [h, ('\n' :: pendRev).reverse] = [(h, pendRev.reverse ++ ['\n'])]
      simp [pairAux]
  | cons l ls2 ih =>
    intro tr h pendRev fuel hwf hgood htr hfuel
    simp only [linesWF, List.all_cons, Bool.and_eq_true] at hwf
    simp only [goodLines, List.all_cons, Bool.and_eq_true] at hgood
    have hf : ∃ f, fuel = f + 1 :=
      ⟨fuel - 1, by simp [resid, List.length_cons] at hfuel; omega⟩
    obtain ⟨f, hf⟩ := hf; subst hf
    have hstep : splitAuxF (f + 1) (resid (l :: ls2) tr) pendRev false
        = splitAuxF f (l ++ resid ls2 tr) ('\n' :: pendRev) true := rfl
    rw [hstep]
    have hres := resid_shape ls2 tr htr
    have hflen : l.length + (resid ls2 tr).length ≤ f := by
      simp only [resid, List.length_cons, List.length_append] at hfuel
      omega
    by_cases hhh : startsHH l = true
    · have hgoodl := goodLine_drop l hgood.1 hhh
      have hlen2 := startsHH_len2 l hhh
      have hf2 : ∃ f2, f = f2 + 1 := ⟨f - 1, by omega⟩
      obtain ⟨f2, hf2⟩ := hf2; subst hf2
      rw [splitAuxF_headline l (resid ls2 tr) ('\n' :: pendRev) f2 hwf.1 hhh hgoodl hres]
      show (h, ('\n' :: pendRev).reverse)
            :: pairAux (l :: splitAuxF f2 (resid ls2 tr) [] false)
          = lineSecAux h pendRev (l :: ls2) tr
      rw [ih tr l [] f2 (by simpa [linesWF] using hwf.2)
          (by simpa [goodLines] using hgood.2) htr (by omega)]
      show (h, ('\n' :: pendRev).reverse) :: lineSecAux l [] ls2 tr
          = lineSecAux h pendRev (l :: ls2) tr
      simp [lineSecAux, hhh, List.reverse_cons]
    · have hhh' : startsHH l = false := by
        cases hq : startsHH l with
        | false => rfl
        | true => exact absurd hq hhh
      rw [splitAuxF_textline l (resid ls2 tr) ('\n' :: pendRev) f hwf.1 hhh' hres hflen]
      rw [ih tr h (l.reverse ++ '\n' :: pendRev) (f - l.length)
          (by simpa [linesWF] using hwf.2) (by simpa [goodLines] using hgood.2) htr
          (by omega)]
      show lineSecAux h (l.reverse ++ '\n' :: pendRev) ls2 tr
          = lineSecAux h pendRev (l :: ls2) tr
      simp [lineSecAux, hhh']

theorem scanTop :
    ∀ (ls : List (List Char)) (tr acc : List Char) (fuel : Nat),
      linesWF ls = true → goodLines ls = true → (tr = [] ∨ tr = ['\n']) →
      (joinL ls ++ tr).length ≤ fuel →
      pairSections (splitAuxF fuel (joinL ls ++ tr) acc true) = lineSecTop ls tr := by
  intro ls
  induction ls with
  | nil =>
    intro tr acc fuel _ _ htr hfuel
    rcases htr with h1 | h1 <;> subst h1
    · rw [show joinL [] ++ [] = ([] : List Char) from rfl, splitAuxF_nil_list]
      rfl
    · rw [show joinL [] ++ ['\n'] = ['\n'] from rfl]
      rw [splitAuxF_nl_flag]
      have hf : ∃ f, fuel = f + 1 := ⟨fuel - 1, by simp at hfuel; omega⟩
      obtain ⟨f, hf⟩ := hf; subst hf
      have hstep : splitAuxF (f + 1) ['\n'] acc false
          = splitAuxF f [] ('\n' :: acc) true := rfl
      rw [hstep, splitAuxF_nil_list]
      rfl
  | cons l ls2 ih =>
    intro tr acc fuel hwf hgood htr hfuel
    simp only [linesWF, List.all_cons, Bool.and_eq_true] at hwf
    simp only [goodLines, List.all_cons, Bool.and_eq_true] at hgood
    rw [joinL_cons_append l ls2 tr] at hfuel ⊢
    have hres := resid_shape ls2 tr htr
    have hflen : l.length + (resid ls2 tr).length ≤ fuel := by
      simpa [List.length_append] using hfuel
    by_cases hhh : startsHH l = true
    · have hgoodl := goodLine_drop l hgood.1 hhh
      have hlen2 := startsHH_len2 l hhh
      have hf2 : ∃ f2, fuel = f2 + 1 := ⟨fuel - 1, by omega⟩
      obtain ⟨f2, hf2⟩ := hf2; subst hf2
      rw [splitAuxF_headline l (resid ls2 tr) acc f2 hwf.1 hhh hgoodl hres]
      show pairAux (l :: splitAuxF f2 (resid ls2 tr) [] false) = lineSecTop (l :: ls2) tr
      rw [scanBody ls2 tr l [] f2 (by simpa [linesWF] using hwf.2)
          (by simpa [goodLines] using hgood.2) htr (by omega)]
      show lineSecAux l [] ls2 tr = lineSecTop (l :: ls2) tr
      simp [lineSecTop, hhh]
    · have hhh' : startsHH l = false := by
        cases hq : startsHH l with
        | false => rfl
        | true => exact absurd hq hhh
      rw [splitAuxF_textline l (resid ls2 tr) acc fuel hwf.1 hhh' hres hflen]
      have hltop : lineSecTop (l :: ls2) tr = lineSecTop ls2 tr := by
        simp [lineSecTop, hhh']
      rw [hltop]
      cases ls2 with
      | nil =>
        rcases htr with h1 | h1 <;> subst h1
        · rw [show resid [] [] = ([] : List Char) from rfl, splitAuxF_nil_list]
          rfl
        · rw [show resid [] ['\n'] = ['\n'] from rfl]
          have hf : ∃ f3, fuel - l.length = f3 + 1 :=
            ⟨fuel - l.length - 1, by
              simp only [resid, List.length_cons, List.length_nil] at hflen
              omega⟩
          obtain ⟨f3, hf3⟩ := hf
          rw [hf3]
          have hstep : splitAuxF (f3 + 1) ['\n'] (l.reverse ++ acc) false
              = splitAuxF f3 [] ('\n' :: (l.reverse ++ acc)) true := rfl
          rw [hstep, splitAuxF_nil_list]
          rfl
      | cons a b =>
        have hf : ∃ f3, fuel - l.length = f3 + 1 :=
          ⟨fuel - l.length - 1, by
            simp only [resid, List.length_cons] at hflen
            omega⟩
        obtain ⟨f3, hf3⟩ := hf
        rw [hf3]
        have hstep : splitAuxF (f3 + 1) (resid (a :: b) tr) (l.reverse ++ acc) false
            = splitAuxF f3 (a ++ resid b tr) ('\n' :: (l.reverse ++ acc)) true := rfl
        rw [hstep, ← joinL_cons_append a b tr]
        have harith : (joinL (a :: b) ++ tr).length ≤ f3 := by
          rw [joinL_cons_append a b tr]
          simp only [resid, List.length_cons] at hflen
          omega
        rw [ih tr ('\n' :: (l.reverse ++ acc)) f3 (by simpa [linesWF] using hwf.2)
            (by simpa [goodLines] using hgood.2) htr harith]

theorem lineSec_spec :
    ∀ (ls : List (List Char)) (tr h : List Char) (colRev : List (List Char)),
      (tr = [] ∨ tr = ['\n']) →
      (lineSecAux h (linesChunk colRev.reverse).reverse ls tr).map
          (fun p => (p.1, pyStrip p.2))
        = (specGroupAux h colRev ls).map (fun p => (p.1, pyStrip (joinL p.2))) := by
  intro ls
  induction ls with
  | nil =>
    intro tr h colRev htr
    show [(h, pyStrip ((linesChunk colRev.reverse).reverse.reverse ++ tr))]
        = [(h, pyStrip (joinL colRev.reverse))]
    rw [List.reverse_reverse]
    rcases htr with h1 | h1 <;> subst h1
    · rw [List.append_nil, pyStrip_linesChunk]
    · rw [pyStrip_append_ws _ '\n' rfl, pyStrip_linesChunk]
  | cons l ls2 ih =>
    intro tr h colRev htr
    by_cases hhh : startsHH l = true
    · simp only [lineSecAux, specGroupAux, hhh, if_pos, List.map_cons]
      congr 1
      · rw [List.reverse_reverse, pyStrip_append_ws _ '\n' rfl, pyStrip_linesChunk]
      · exact ih tr l [] htr
    · have hhh' : startsHH l = false := by
        cases hq : startsHH l with
        | false => rfl
        | true => exact absurd hq hhh
      simp only [lineSecAux, specGroupAux, hhh', Bool.false_eq_true, if_false]
      have hpend : l.reverse ++ '\n' :: (linesChunk colRev.reverse).reverse
          = (linesChunk (l :: colRev).reverse).reverse := by
        rw [show (l :: colRev).reverse = colRev.reverse ++ [l] from by simp]
        rw [linesChunk_append_single, List.reverse_append]
        simp
      rw [hpend]
      exact ih tr h (l :: colRev) htr

theorem lineSecTop_spec :
    ∀ (ls : List (List Char)) (tr : List Char), (tr = [] ∨ tr = ['\n']) →
      (lineSecTop ls tr).map (fun p => (p.1, pyStrip p.2))
        = (specSections ls).map (fun p => (p.1, pyStrip (joinL p.2))) := by
  intro ls
  induction ls with
  | nil => intro tr _; rfl
  | cons l ls2 ih =>
    intro tr htr
    by_cases hhh : startsHH l = true
    · simp only [lineSecTop, specSections, hhh, if_pos]
      exact lineSec_spec ls2 tr l [] htr
    · have hhh' : startsHH l = false := by
        cases hq : startsHH l with
        | false => rfl
        | true => exact absurd hq hhh
      simp only [lineSecTop, specSections, hhh', Bool.false_eq_true, if_false]
      exact ih tr htr

/-- Refinement: under the `goodLines` side condition the code's sections
(after the `strip()` the code applies to each raw part) are exactly the
claim-side per-line sections. -/
theorem sections_spec (cs : List Char) (hgood : goodLines (splitlines cs) = true) :
    (sections cs).map (fun p => (p.1, pyStrip p.2))
      = (specSections (splitlines cs)).map (fun p => (p.1, pyStrip (joinL p.2))) := by
  obtain ⟨tr, htr, heq⟩ := splitlines_decomp cs
  have hwf := splitlines_wf cs
  have hscan := scanTop (splitlines cs) tr [] cs.length hwf hgood htr
    (by rw [heq])
  rw [heq] at hscan
  have hsec : sections cs = lineSecTop (splitlines cs) tr := hscan
  rw [hsec, lineSecTop_spec (splitlines cs) tr htr]

theorem specSections_nil :
    ∀ ls : List (List Char), (ls.all (fun l => !startsHH l)) = true →
      specSections ls = [] := by
  intro ls
  induction ls with
  | nil => intro _; rfl
  | cons l ls2 ih =>
    intro h
    simp only [List.all_cons, Bool.and_eq_true] at h
    obtain ⟨h1, h2⟩ := h
    have hf : startsHH l = false := by
      cases hq : startsHH l with
      | false => rfl
      | true => rw [hq] at h1; simp at h1
    simp only [specSections, hf, Bool.false_eq_true, if_false]
    exact ih h2

theorem stripR_cons_not_ws (c : Char) (x : List Char) (hc : isPySpace c = false) :
    ((c :: x).reverse.dropWhile isPySpace).reverse
      = c :: (x.reverse.dropWhile isPySpace).reverse := by
  rw [List.reverse_cons, List.dropWhile_append]
  by_cases he : (x.reverse.dropWhile isPySpace).isEmpty = true
  · rw [if_pos he]
    rw [List.isEmpty_iff] at he
    rw [he]
    simp [List.dropWhile_cons, hc]
  · rw [if_neg he]
    simp

/-- Stripping whitespace never destroys a leading `##` marker. -/
theorem startsHH_pyStrip (l : List Char) (h : startsHH l = true) :
    startsHH (pyStrip l) = true := by
  cases l with
  | nil => simp [startsHH] at h
  | cons c1 rest =>
    cases rest with
    | nil => simp [startsHH] at h
    | cons c2 u =>
      simp only [startsHH, Bool.and_eq_true, beq_iff_eq] at h
      obtain ⟨h1, h2⟩ := h
      subst h1; subst h2
      have hns : isPySpace '#' = false := rfl
      have hd : List.dropWhile isPySpace ('#' :: '#' :: u) = '#' :: '#' :: u := by
        simp [List.dropWhile_cons, hns]
      unfold pyStrip
      rw [hd, stripR_cons_not_ws '#' ('#' :: u) hns, stripR_cons_not_ws '#' u hns]
      simp [startsHH]

/-- If no line's stripped content begins with `##`, the loop processes no
sections at all. -/
theorem sections_nil_of_no_markers (cs : List Char)
    (h : ∀ l ∈ splitlines cs, startsHH (pyStrip l) = false) :
    sections cs = [] := by
  have hcol : (splitlines cs).all (fun l => !startsHH l) = true := by
    rw [List.all_eq_true]
    intro l hl
    cases hq : startsHH l with
    | false => rfl
    | true =>
      have h2 := startsHH_pyStrip l hq
      rw [h l hl] at h2
      simp at h2
  have hgood : goodLines (splitlines cs) = true := by
    rw [goodLines, List.all_eq_true]
    intro l hl
    rw [List.all_eq_true] at hcol
    have h3 := hcol l hl
    cases hq : startsHH l with
    | false => simp [goodLine, hq]
    | true => rw [hq] at h3; simp at h3
  have hspec := sections_spec cs hgood
  rw [specSections_nil _ hcol] at hspec
  simpa using hspec

/-! ### Reference definitions and lemmas for the rendering claims -/

/-- Claim-side (line-by-line) reading of inline resolution for a bullet
body: the marker is stripped from each non-blank line and span resolution
is then applied to that line independently. -/
def lineByLineBulletItems (body : List Char) : List (List Char × PStyle) :=
  (splitlines body).filterMap (fun l =>
    let s := pyStrip l
    if s.isEmpty then none
    else some (process_inline_L (stripBulletMarker s), bullet_style))

/-- Reference form of the code's bullet items: the non-blank stripped lines
of the once-processed content, each with its marker removed after
resolution. -/
def amendedBulletItems (processed : List Char) : List (List Char × PStyle) :=
  (((splitlines processed).map pyStrip).filter (fun s => !s.isEmpty)).map
    (fun s => (stripBulletMarker s, bullet_style))

theorem bulletItems_eq_amended (c : List Char) :
    bulletItems c = amendedBulletItems c := by
  unfold bulletItems amendedBulletItems
  induction splitlines c with
  | nil => rfl
  | cons l ls ih =>
    simp only [List.filterMap_cons, List.map_cons, List.filter_cons]
    by_cases he : pyStrip l = []
    · simp [he]
      simpa using ih
    · simp [he]
      simpa using ih

theorem foldl_append_eq_flatMap {α β : Type} (f : α → List β) :
    ∀ (xs : List α) (init : List β),
      xs.foldl (fun acc x => acc ++ f x) init = init ++ xs.flatMap f := by
  intro xs
  induction xs with
  | nil => intro init; simp
  | cons x xs2 ih =>
    intro init
    simp only [List.foldl_cons, List.flatMap_cons, ih, List.append_assoc]

theorem buildElements_flatMap (content : List Char) (sp : Nat) :
    buildElements content sp
      = (sections content).flatMap (fun p => sectionElements sp p.1 p.2) := by
  unfold buildElements
  rw [foldl_append_eq_flatMap]
  simp

/-! ### Claim theorems -/

/-- Claim C1, counterexample: the code applies inline-span resolution once
to the whole body before splitting it into bullet lines, so a link whose
URL spans a line break is resolved; resolving each line independently
(with the marker stripped first), as the claim states, gives different
bullet items on the body `"- [t](http://a\nb)"` — which the code does
classify as a bullet list. -/
theorem C1_counterexample :
    classifyIsBullet (process_inline_L (pyStrip "- [t](http://a\nb)".data)) = true
    ∧ bulletItems (process_inline_L (pyStrip "- [t](http://a\nb)".data))
        ≠ lineByLineBulletItems (pyStrip "- [t](http://a\nb)".data) := by
  constructor
  · decide
  · decide

/-- Claim C1, amended: inline-span resolution is applied to the heading
text and once to the entire (stripped) body as a whole; for bullet-list
bodies the leading bullet marker is stripped from each non-blank line of
the already-resolved content (blank lines produce no item). -/
theorem C1_amended :
    (∀ c : List Char, bulletItems c = amendedBulletItems c)
    ∧ (∀ (sp : Nat) (h t : List Char),
        (sectionElements sp h t).head?
          = some (Flowable.para (process_inline_L (heading_text_of h)) heading_style))
    ∧ (∀ (sp : Nat) (h t : List Char),
        classifyIsBullet (process_inline_L (pyStrip t)) = true →
        sectionElements sp h t
          = [Flowable.para (process_inline_L (heading_text_of h)) heading_style,
             Flowable.spacer 1 sp,
             Flowable.listFlowable (bulletItems (process_inline_L (pyStrip t)))
               "bullet" 20,
             Flowable.spacer 1 12]) := by
  refine ⟨bulletItems_eq_amended, fun sp h t => rfl, ?_⟩
  intro sp h t hb
  simp only [sectionElements, hb]
  rfl

/-- Witness for the amended claim C1 at a concrete bullet body. -/
theorem C1_amended_witness :
    classifyIsBullet (process_inline_L (pyStrip "- item".data)) = true
    ∧ sectionElements 24 "## H".data "- item".data
        = [Flowable.para (process_inline_L (heading_text_of "## H".data)) heading_style,
           Flowable.spacer 1 24,
           Flowable.listFlowable
             (bulletItems (process_inline_L (pyStrip "- item".data))) "bullet" 20,
           Flowable.spacer 1 12] :=
  ⟨by decide, C1_amended.2.2 24 "## H".data "- item".data (by decide)⟩

/-- Claim C2, counterexample: the line `"  ## Only"` has non-blank content
beginning with a `##` marker, yet the code recognises no heading in
`"  ## Only\nBody"` (the regex anchors `##` at column 0), so no section is
produced. -/
theorem C2_counterexample :
    ((splitlines "  ## Only\nBody".data).any (fun l => startsHH (pyStrip l))) = true
    ∧ sections "  ## Only\nBody".data = [] := by
  constructor
  · decide
  · decide

/-- Claim C2, amended: a line starting at column 0 with `##` (with heading
text on the same line) starts a new section and content before the first
such heading is discarded: the sections the code iterates over are exactly
the claim-side per-line sections (headings verbatim, bodies compared after
the `strip()` the code applies).  In particular
`"stray text\n## Only\nBody"` yields exactly the section
(`"## Only"`, `"\nBody"`). -/
theorem C2_amended :
    (∀ cs : List Char, goodLines (splitlines cs) = true →
      (sections cs).map (fun p => (p.1, pyStrip p.2))
        = (specSections (splitlines cs)).map (fun p => (p.1, pyStrip (joinL p.2))))
    ∧ sections "stray text\n## Only\nBody".data
        = [("## Only".data, "\nBody".data)] :=
  ⟨sections_spec, by decide⟩

/-- Witness for the amended claim C2 at the concrete scenario input. -/
theorem C2_amended_witness :
    goodLines (splitlines "stray text\n## Only\nBody".data) = true
    ∧ (sections "stray text\n## Only\nBody".data).map (fun p => (p.1, pyStrip p.2))
        = (specSections (splitlines "stray text\n## Only\nBody".data)).map
            (fun p => (p.1, pyStrip (joinL p.2))) :=
  ⟨by decide, C2_amended.1 "stray text\n## Only\nBody".data (by decide)⟩

/-- Claim C3: a section body is classified by its first non-blank line
only — the classification is a function of that line, it is `true` exactly
when the line carries an ordered (`alnum+ "." ws`) or dash (`"-" ws`)
marker, a body with no non-blank line is a paragraph, and the concrete
body whose first line is prose and whose second line starts with `"- "`
renders as a flowed paragraph, not a bullet list. -/
theorem C3_first_line_classification :
    (∀ s t : List Char,
      firstNonBlank (splitlines s) = firstNonBlank (splitlines t) →
      classifyIsBullet s = classifyIsBullet t)
    ∧ (∀ s l : List Char, firstNonBlank (splitlines s) = some l →
        classifyIsBullet s = bulletMarkerMatch l)
    ∧ (∀ s : List Char, firstNonBlank (splitlines s) = none →
        classifyIsBullet s = false)
    ∧ classifyIsBullet "plain prose\n- item".data = false
    ∧ sectionElements 24 "## H".data "\nplain prose\n- item".data
        = [Flowable.para "H".data heading_style, Flowable.spacer 1 24,
           Flowable.para "plain prose\n- item".data body_style,
           Flowable.spacer 1 12] := by
  refine ⟨?_, ?_, ?_, by decide, by decide⟩
  · intro s t h
    unfold classifyIsBullet
    rw [h]
  · intro s l h
    unfold classifyIsBullet
    rw [h]
  · intro s h
    unfold classifyIsBullet
    rw [h]

/-- Witness for claim C3: two bodies with the same first non-blank line
classify identically. -/
theorem C3_witness :
    firstNonBlank (splitlines "- a\nx".data) = firstNonBlank (splitlines "- a\ny".data)
    ∧ classifyIsBullet "- a\nx".data = classifyIsBullet "- a\ny".data :=
  ⟨by decide, C3_first_line_classification.1 "- a\nx".data "- a\ny".data (by decide)⟩

/-- Claim C4: bold substitution runs before italic substitution (italic is
applied to the already-bold-substituted text, link substitution last), so
`"**bold**"` resolves with no stray `*` and in `"**a*b*c**"` the outer
`**...**` becomes the bold span before the inner `*...*` is considered. -/
theorem C4_bold_precedence :
    process_inline_formatting "**bold**" = "<b>bold</b>"
    ∧ ('*' ∉ (process_inline_formatting "**bold**").data)
    ∧ process_inline_formatting "**a*b*c**" = "<b>a<i>b</i>c</b>"
    ∧ (∀ s : String, process_inline_formatting s
        = String.mk (subLink (subItalic (subBold s.data)))) :=
  ⟨by decide, by decide, by decide, fun s => rfl⟩

/-- Claim C5: a link resolves only when its URL starts with `http://` or
`https://` (every successful link match carries such a scheme); the
schemeless `"[text](notaurl)"` is passed through as literal text, the
schemed `"[text](https://x.io)"` resolves to a hyperlink span, and any
text containing no resolvable link pattern is left unchanged by the link
substitution (resolution is total — no error path exists). -/
theorem C5_link_requires_scheme :
    (∀ l t url v : List Char, matchLinkAt l = some (t, url, v) →
      "http://".data <+: url ∨ "https://".data <+: url)
    ∧ process_inline_formatting "[text](notaurl)" = "[text](notaurl)"
    ∧ process_inline_formatting "[text](https://x.io)"
        = "<a href=\"https://x.io\" color=\"blue\">text</a>"
    ∧ (∀ s : List Char, containsLinkPat s = false → subLink s = s) :=
  ⟨matchLinkAt_scheme, by decide, by decide, subLink_id⟩

/-- Witness for claim C5 at a concrete resolved link and a concrete
schemeless input. -/
theorem C5_witness :
    ("http://".data <+: "http://x".data ∨ "https://".data <+: "http://x".data)
    ∧ subLink "[text](notaurl)".data = "[text](notaurl)".data :=
  ⟨C5_link_requires_scheme.1 "[t](http://x)".data "t".data "http://x".data []
      (by decide),
   C5_link_requires_scheme.2.2.2 "[text](notaurl)".data (by decide)⟩

/-- Claim C6: when the font resource is missing, `create_pdf_reportlab`
fails with the missing-resource error for every content string and no
flowable list (hence no PDF bytes) is ever produced. -/
theorem C6_missing_font (content : String) (sp : Nat) :
    create_pdf_reportlab false content sp
      = Except.error "TTF Font file not found: dejavu-fonts-ttf-2.37/dejavu-fonts-ttf-2.37/ttf/DejaVuSans.ttf"
    ∧ (create_pdf_reportlab false content sp).isOk = false :=
  ⟨rfl, rfl⟩

/-- Claim C7: inline-span resolution is the identity on text already free
of bold, italic, and (schemed) link pattern occurrences. -/
theorem C7_resolution_idempotent (s : String)
    (h1 : containsBoldPat s.data = false) (h2 : containsItalicPat s.data = false)
    (h3 : containsLinkPat s.data = false) :
    process_inline_formatting s = s := by
  unfold process_inline_formatting process_inline_L
  rw [subBold_id s.data h1, subItalic_id s.data h2, subLink_id s.data h3]

/-- Witness for claim C7 on a concrete marker-free string. -/
theorem C7_witness :
    (containsBoldPat "plain text.".data = false
      ∧ containsItalicPat "plain text.".data = false
      ∧ containsLinkPat "plain text.".data = false)
    ∧ process_inline_formatting "plain text." = "plain text." :=
  ⟨⟨by decide, by decide, by decide⟩,
   C7_resolution_idempotent "plain text." (by decide) (by decide) (by decide)⟩

/-- Claim C8: an input with no heading-marker line (no line whose stripped
content begins with `##`) yields no sections, every rendered element list
is empty, and rendering succeeds with an empty document. -/
theorem C8_no_headings (s : String)
    (h : ∀ l ∈ splitlines s.data, startsHH (pyStrip l) = false) :
    sections s.data = []
    ∧ (∀ sp : Nat, buildElements s.data sp = [])
    ∧ (∀ sp : Nat, create_pdf_reportlab true s sp = Except.ok []) := by
  have hs := sections_nil_of_no_markers s.data h
  have hb : ∀ sp : Nat, buildElements s.data sp = [] := by
    intro sp
    unfold buildElements
    rw [hs]
    rfl
  refine ⟨hs, hb, ?_⟩
  intro sp
  simp [create_pdf_reportlab, hb sp]

/-- Witness for claim C8 on a concrete heading-free input (and the empty
string). -/
theorem C8_witness :
    ((∀ l ∈ splitlines "hello\nworld".data, startsHH (pyStrip l) = false)
      ∧ sections "hello\nworld".data = [])
    ∧ ((∀ l ∈ splitlines "".data, startsHH (pyStrip l) = false)
      ∧ sections "".data = []) :=
  ⟨⟨by decide, (C8_no_headings "hello\nworld" (by decide)).1⟩,
   ⟨by decide, (C8_no_headings "" (by decide)).1⟩⟩

/-- Claim C9: the renderer emits the per-section blocks in source order
(the imperative appends equal the concatenation of per-section element
lists); every section contributes a styled heading paragraph, a spacer of
the caller-chosen `heading_to_content_space`, its body blocks and a fixed
height-12 spacer; a section whose body strips to empty contributes the
heading with no body block. -/
theorem C9_render_order :
    (∀ (content : List Char) (sp : Nat),
      buildElements content sp
        = (sections content).flatMap (fun p => sectionElements sp p.1 p.2))
    ∧ (∀ (sp : Nat) (h t : List Char), ∃ body,
        sectionElements sp h t
          = Flowable.para (process_inline_L (heading_text_of h)) heading_style
            :: Flowable.spacer 1 sp :: (body ++ [Flowable.spacer 1 12]))
    ∧ (∀ (sp : Nat) (h t : List Char), pyStrip t = [] →
        sectionElements sp h t
          = [Flowable.para (process_inline_L (heading_text_of h)) heading_style,
             Flowable.spacer 1 sp, Flowable.spacer 1 12]) := by
  refine ⟨buildElements_flatMap, ?_, ?_⟩
  · intro sp h t
    exact ⟨_, rfl⟩
  · intro sp h t ht
    simp only [sectionElements, ht]
    rfl

/-- Witness for claim C9 at a concrete empty-bodied section. -/
theorem C9_witness :
    pyStrip "".data = []
    ∧ sectionElements 24 "## X".data "".data
        = [Flowable.para (process_inline_L (heading_text_of "## X".data)) heading_style,
           Flowable.spacer 1 24, Flowable.spacer 1 12] :=
  ⟨by decide, C9_render_order.2.2 24 "## X".data "".data (by decide)⟩

/-- Claim C10: a bold or italic group never contains a newline (so a pair
whose opener and closer sit on different lines stays literal, as the
concrete `"**a\nb**"` and `"*a\nb*"` show), while the URL of a link match
may span a line break: `"[t](http://x\ny)"` resolves to a hyperlink whose
URL contains the newline. -/
theorem C10_span_line_scope :
    (∀ l g r : List Char, matchBoldAt l = some (g, r) → '\n' ∉ g)
    ∧ (∀ l g r : List Char, matchItalicAt l = some (g, r) → '\n' ∉ g)
    ∧ process_inline_formatting "**a\nb**" = "**a\nb**"
    ∧ process_inline_formatting "*a\nb*" = "*a\nb*"
    ∧ (process_inline_formatting "[t](http://x\ny)"
        = "<a href=\"http://x\ny\" color=\"blue\">t</a>"
      ∧ '\n' ∈ "http://x\ny".data) :=
  ⟨matchBoldAt_no_newline, matchItalicAt_no_newline, by decide, by decide,
   by decide, by decide⟩

/-- Witness for claim C10 at a concrete bold match. -/
theorem C10_witness :
    matchBoldAt "**ab**".data = some ("ab".data, [])
    ∧ '\n' ∉ "ab".data :=
  ⟨by decide, C10_span_line_scope.1 "**ab**".data "ab".data [] (by decide)⟩
